import Mathlib

/-!
Verification development for the astro-inspector tree extraction,
classification, filtering and highlighting core.

Shallow embedding conventions:
* A DOM element is a rose tree carrying its tag name, its attribute list
  (`getAttribute` returning `none` models a `null` return), and its
  `getBoundingClientRect` result as a rectangle with integer pixel
  coordinates.
* The dot-joined structural path string (for example "0.1.3") is represented
  by its list of integer segments (`List Nat`).  The builder only ever joins
  decimal numerals with dots and the highlighter only ever splits on dots and
  parses each segment with `Number`, so the string form and the segment list
  are in exact bijection; the empty path string corresponds to `[]`, matching
  the `if (elementPath)` guard in the highlighter.
* `JSON.parse` is host code, not part of the repository; the builder is
  parameterised by a function `parse : String -> Option Json` where `none`
  models a thrown parse error.  A `name` field that is not a string lies
  outside the declared TypeScript type and is modelled as absent.
* JavaScript `Set` objects holding node ids are modelled as `List String`
  with membership, insert-if-absent and delete operations.
-/

namespace AstroInspector

/-- Minimal JSON value model for the island metadata attributes. -/
inductive Json where
  | null
  | bool (b : Bool)
  | num (n : Int)
  | str (s : String)
  | arr (xs : List Json)
  | obj (fields : List (String × Json))

/-- Result of getBoundingClientRect: top, left, width and height, with pixel
coordinates modelled as integers. -/
structure Rect where
  top : ℤ
  left : ℤ
  width : ℤ
  height : ℤ
deriving DecidableEq

/-- Derived field: right = left + width, as in a DOMRect. -/
def Rect.right (r : Rect) : ℤ := r.left + r.width

/-- Derived field: bottom = top + height, as in a DOMRect. -/
def Rect.bottom (r : Rect) : ℤ := r.top + r.height

/-- A live DOM element: tag name, attributes, bounding rectangle, children. -/
inductive Element where
  | mk (tagName : String) (attrs : List (String × String)) (rect : Rect)
       (children : List Element)

def Element.tagName : Element → String
  | .mk t _ _ _ => t

def Element.attrs : Element → List (String × String)
  | .mk _ a _ _ => a

def Element.rect : Element → Rect
  | .mk _ _ r _ => r

def Element.children : Element → List Element
  | .mk _ _ _ cs => cs

/-- Models `element.getAttribute(name)`; `none` models the `null` return. -/
def Element.getAttribute (e : Element) (name : String) : Option String :=
  (e.attrs.find? (fun p => p.1 == name)).map Prod.snd

/-- Scalar fields of a snapshot tree node (everything except the children). -/
structure NodeData where
  id : String
  tagName : String
  isAstroIsland : Bool
  componentName : Option String
  clientDirective : Option String
  props : Option Json
  framework : Option String
  depth : Nat
  path : List Nat

/-- A snapshot tree node: scalar data plus the ordered child list. -/
inductive TreeNode where
  | mk (data : NodeData) (children : List TreeNode)

def TreeNode.data : TreeNode → NodeData
  | .mk d _ => d

def TreeNode.children : TreeNode → List TreeNode
  | .mk _ cs => cs

def TreeNode.id (t : TreeNode) : String := t.data.id

def TreeNode.isAstroIsland (t : TreeNode) : Bool := t.data.isAstroIsland

def TreeNode.path (t : TreeNode) : List Nat := t.data.path

def TreeNode.depth (t : TreeNode) : Nat := t.data.depth

@[simp] theorem TreeNode.data_mk (d : NodeData) (cs : List TreeNode) :
    (TreeNode.mk d cs).data = d := rfl

@[simp] theorem treeNodeChildren_mk (d : NodeData) (cs : List TreeNode) :
    (TreeNode.mk d cs).children = cs := rfl

mutual

/-- Recursively check if a node or any descendant is an island
(`hasIslandDescendant` in the panel source). -/
def hasIslandDescendant : TreeNode → Bool
  | .mk d cs => d.isAstroIsland || hasIslandDescendantList cs

/-- List form of `node.children.some(hasIslandDescendant)`. -/
def hasIslandDescendantList : List TreeNode → Bool
  | [] => false
  | c :: cs => hasIslandDescendant c || hasIslandDescendantList cs

end

/-- Membership test of the modelled id set (`Set.has`). -/
def setHas (s : List String) (id : String) : Bool := s.contains id

/-- Models `Set.add`: inserts at the end when absent, as a JS Set does. -/
def setAdd (s : List String) (id : String) : List String :=
  if s.contains id then s else s ++ [id]

/-- Models `Set.delete`: removes every occurrence of the id. -/
def setDelete (s : List String) (id : String) : List String :=
  s.filter (fun x => x ≠ id)

mutual

/-- Collect all node ids that lead to islands (`collectExpandedNodes` in the
panel source): add the id of the node, then recurse into exactly those
children that have an island self-or-descendant. -/
def collectExpandedNodes : TreeNode → List String → List String
  | .mk d cs, result => collectExpandedLoop cs (setAdd result d.id)

/-- The `for (const child of node.children)` loop of `collectExpandedNodes`. -/
def collectExpandedLoop : List TreeNode → List String → List String
  | [], result => result
  | c :: cs, result =>
      collectExpandedLoop cs
        (if hasIslandDescendant c then collectExpandedNodes c result else result)

end

mutual

/-- Flatten the visible tree into a list for keyboard navigation
(`flattenVisibleTree` in the panel source).  The accumulator models the
mutated `result` array. -/
def flattenVisibleTree : TreeNode → List String → List TreeNode → List TreeNode
  | .mk d cs, expandedNodes, result =>
      let result := result ++ [TreeNode.mk d cs]
      if setHas expandedNodes d.id then flattenVisibleLoop cs expandedNodes result
      else result

/-- The `for (const child of node.children)` loop of `flattenVisibleTree`. -/
def flattenVisibleLoop :
    List TreeNode → List String → List TreeNode → List TreeNode
  | [], _, result => result
  | c :: cs, expandedNodes, result =>
      flattenVisibleLoop cs expandedNodes
        (flattenVisibleTree c expandedNodes result)

end

mutual

/-- Find the direct parent of the node with the given id (`findParent` in the
panel source); the third argument is the `parent` parameter. -/
def findParent : TreeNode → String → Option TreeNode → Option TreeNode
  | .mk d cs, targetId, parent =>
      if d.id == targetId then parent
      else findParentLoop cs targetId (TreeNode.mk d cs)

/-- The child loop of `findParent`: returns the first non-null result. -/
def findParentLoop : List TreeNode → String → TreeNode → Option TreeNode
  | [], _, _ => none
  | c :: cs, targetId, root =>
      match findParent c targetId (some root) with
      | some found => some found
      | none => findParentLoop cs targetId root

end

mutual

/-- Filter the tree to islands and ancestors of islands (the `filter`
function inside the `filteredTree` useMemo of the panel source). -/
def filterIslandsOnly : TreeNode → Option TreeNode
  | .mk d cs =>
      if d.isAstroIsland then some (TreeNode.mk d (filterIslandsOnlyList cs))
      else
        let filteredChildren := filterIslandsOnlyList cs
        if filteredChildren.length > 0 then some (TreeNode.mk d filteredChildren)
        else none

/-- Models `node.children.map(filter).filter(c => c !== null)`. -/
def filterIslandsOnlyList : List TreeNode → List TreeNode
  | [] => []
  | c :: cs =>
      match filterIslandsOnly c with
      | some t => t :: filterIslandsOnlyList cs
      | none => filterIslandsOnlyList cs

end

mutual

/-- All nodes of a snapshot tree in preorder (auxiliary, used to state
properties quantified over every node of a tree). -/
def allNodes : TreeNode → List TreeNode
  | .mk d cs => TreeNode.mk d cs :: allNodesList cs

/-- Preorder node list of a forest. -/
def allNodesList : List TreeNode → List TreeNode
  | [] => []
  | c :: cs => allNodes c ++ allNodesList cs

end

mutual

/-- Number of island nodes in a tree (auxiliary). -/
def countIslands : TreeNode → Nat
  | .mk d cs => (if d.isAstroIsland then 1 else 0) + countIslandsList cs

/-- Number of island nodes in a forest. -/
def countIslandsList : List TreeNode → Nat
  | [] => 0
  | c :: cs => countIslands c + countIslandsList cs

end

/-- Subtree of a snapshot tree at a position given by child indices
(auxiliary). -/
def nodeAtPos : TreeNode → List Nat → Option TreeNode
  | t, [] => some t
  | t, i :: rest =>
      match t.children[i]? with
      | some c => nodeAtPos c rest
      | none => none

mutual

/-- Positions (child-index sequences) of all nodes of a tree, in preorder
(auxiliary). -/
def positions : TreeNode → List (List Nat)
  | .mk _ cs => [] :: positionsList cs 0

/-- Positions of the nodes of a forest whose first child index is `i`. -/
def positionsList : List TreeNode → Nat → List (List Nat)
  | [], _ => []
  | c :: cs, i => (positions c).map (fun q => i :: q) ++ positionsList cs (i + 1)

end

/-- Strict ancestor positions of a position: every proper initial segment
(auxiliary). -/
def ancestorPaths : List Nat → List (List Nat)
  | [] => []
  | i :: rest => [] :: (ancestorPaths rest).map (fun p => i :: p)

/-- A position is visible when every strict ancestor is expanded
(auxiliary, used to state the flatten length law). -/
def visiblePos (t : TreeNode) (expandedNodes : List String) (q : List Nat) :
    Bool :=
  (ancestorPaths q).all fun p =>
    match nodeAtPos t p with
    | some n => setHas expandedNodes n.id
    | none => false

/-- Number of nodes of the tree whose strict ancestor chain is fully
contained in the expanded set (auxiliary). -/
def countVisible (t : TreeNode) (expandedNodes : List String) : Nat :=
  ((positions t).filter (visiblePos t expandedNodes)).length

/-- Models the JavaScript `s.toLowerCase()` conversion, character by
character. -/
def jsToLower (s : String) : String := String.mk (s.data.map Char.toLower)

/-- Models the JavaScript `s.includes(pat)` substring test. -/
def jsIncludes (s pat : String) : Bool := decide (pat.data <:+: s.data)

/-- Framework detection from the renderer-url attribute, embedding the
if/else-if chain of `buildTree` verbatim. -/
def detectFramework (renderer : String) : Option String :=
  if jsIncludes renderer "react" || jsIncludes renderer "client.C" then
    some "React"
  else if jsIncludes renderer "vue" then some "Vue"
  else if jsIncludes renderer "svelte" then some "Svelte"
  else if jsIncludes renderer "solid" then some "Solid"
  else if jsIncludes renderer "preact" then some "Preact"
  else none

/-- Models the property access `JSON.parse(opts).name` on a parsed value:
the `name` field of an object when it is a string, otherwise absent. -/
def jsonGetName : Json → Option String
  | .obj fields =>
      match fields.find? (fun p => p.1 == "name") with
      | some (_, .str s) => some s
      | _ => none
  | _ => none

/-- Characters after the last slash, or `none` when the list has no slash
(auxiliary for the component-url regex). -/
def afterLastSlash : List Char → Option (List Char)
  | [] => none
  | c :: cs =>
      match afterLastSlash cs with
      | some r => some r
      | none => if c == '/' then some cs else none

/-- Splits a character list at its last dot into the parts before and after
it, or `none` when it has no dot (auxiliary for the component-url regex). -/
def splitAtLastDot : List Char → Option (List Char × List Char)
  | [] => none
  | c :: cs =>
      match splitAtLastDot cs with
      | some (a, b) => some (c :: a, b)
      | none => if c == '.' then some ([], cs) else none

/-- Embedding of `url.match(/\/([^/]+?)(?:\.[^.]+)?$/)?.[1]`: the captured
group is the segment after the last slash with one trailing dot extension
stripped when the segment splits as nonempty-base dot nonempty-extension;
`none` when the regex does not match (no slash, or nothing after the last
slash). -/
def componentUrlName (url : String) : Option String :=
  match afterLastSlash url.data with
  | none => none
  | some r =>
      if r = [] then none
      else
        match splitAtLastDot r with
        | some (a, b) => if a ≠ [] ∧ b ≠ [] then some (String.mk a) else some (String.mk r)
        | none => some (String.mk r)

/-- Models `str1 || str2` on a nullable string: the fallback is taken when
the value is null or the empty string. -/
def jsOrString (v : Option String) (fallback : String) : String :=
  match v with
  | some s => if s == "" then fallback else s
  | none => fallback

mutual

/-- The recursive `buildTree` of the injected `buildTreeInPage` script.
`parse` models the host `JSON.parse` (`none` models a thrown error); the last
argument threads the module-level `nodeId` counter, read for the id of this
node before the children are built. -/
def buildTree (parse : String → Option Json) :
    Element → Nat → List Nat → Nat → TreeNode × Nat
  | .mk tag attrs rect childElems, depth, path, counter =>
      let e : Element := .mk tag attrs rect childElems
      let tagName := jsToLower tag
      let isIsland := tagName == "astro-island"
      let clientDirective : Option String :=
        if isIsland then some (jsOrString (e.getAttribute "client") "load")
        else none
      let optsName : Option String :=
        if isIsland then
          match e.getAttribute "opts" with
          | some s => if s == "" then none else (parse s).bind jsonGetName
          | none => none
        else none
      let componentName : Option String :=
        if isIsland then
          match optsName with
          | some s =>
              if s == "" then
                some (jsOrString
                  (componentUrlName (jsOrString (e.getAttribute "component-url") ""))
                  "Island")
              else some s
          | none =>
              some (jsOrString
                (componentUrlName (jsOrString (e.getAttribute "component-url") ""))
                "Island")
        else none
      let props : Option Json :=
        if isIsland then
          match e.getAttribute "props" with
          | some s => if s == "" || s == "{}" then none else parse s
          | none => none
        else none
      let framework : Option String :=
        if isIsland then detectFramework (jsOrString (e.getAttribute "renderer-url") "")
        else none
      let data : NodeData :=
        { id := "node-" ++ toString counter
          tagName := tagName
          isAstroIsland := isIsland
          componentName := componentName
          clientDirective := clientDirective
          props := props
          framework := framework
          depth := depth
          path := path }
      let built := buildChildren parse childElems depth path 0 (counter + 1)
      (TreeNode.mk data built.1, built.2)

/-- The `Array.from(element.children).forEach((child, i) => ...)` loop of
`buildTree`: builds the children in order, extending the path with the
zero-based child index `i` and the depth by one, threading the counter. -/
def buildChildren (parse : String → Option Json) :
    List Element → Nat → List Nat → Nat → Nat → List TreeNode × Nat
  | [], _, _, _, counter => ([], counter)
  | e :: es, depth, path, i, counter =>
      let built := buildTree parse e (depth + 1) (path ++ [i]) counter
      let rest := buildChildren parse es depth path (i + 1) built.2
      (built.1 :: rest.1, rest.2)

end

/-- Convenience: the tree built by `buildTreeInPage` from the body element,
starting at depth 0, the empty path, and counter 0 (`return buildTree(document.body, 0, "")`
after `let nodeId = 0`). -/
def buildTreeInPage (parse : String → Option Json) (body : Element) : TreeNode :=
  (buildTree parse body 0 [] 0).1

/-- Path resolution of the highlighter and scroller: starting at the body,
descend via `children[index]` for each segment; `none` models the element
becoming null at some step. -/
def resolvePath : Element → List Nat → Option Element
  | e, [] => some e
  | e, i :: rest =>
      match e.children[i]? with
      | some c => resolvePath c rest
      | none => none

/-- The sized test of the highlighter: `r.width > 0 && r.height > 0`. -/
def sizedRect (r : Rect) : Bool := decide (0 < r.width) && decide (0 < r.height)

/-- State of the four mutable bounds of `calculateBounds`:
`none` models all four still at their infinity sentinels. -/
def boundsUpdate (acc : Option (ℤ × ℤ × ℤ × ℤ)) (r : Rect) :
    Option (ℤ × ℤ × ℤ × ℤ) :=
  match acc with
  | none => some (r.left, r.top, r.right, r.bottom)
  | some (minX, minY, maxX, maxY) =>
      some (min minX r.left, min minY r.top, max maxX r.right, max maxY r.bottom)

mutual

/-- The recursive `calculateBounds` of `highlightElement`: fold the rectangle
of the element into the bounds when it is sized, then visit the children. -/
def calculateBounds : Element → Option (ℤ × ℤ × ℤ × ℤ) → Option (ℤ × ℤ × ℤ × ℤ)
  | .mk _ _ r cs, acc =>
      let acc := if sizedRect r then boundsUpdate acc r else acc
      calculateBoundsList cs acc

/-- The `for (const child of el.children)` loop of `calculateBounds`. -/
def calculateBoundsList :
    List Element → Option (ℤ × ℤ × ℤ × ℤ) → Option (ℤ × ℤ × ℤ × ℤ)
  | [], acc => acc
  | c :: cs, acc => calculateBoundsList cs (calculateBounds c acc)

end

/-- The box computation of `highlightElement` on the resolved element: read
the bounding rectangle; when a dimension is zero and the element has
children, synthesize the union bounds of the sized descendants; return
`none` (no overlay rendered) when the final rectangle still has a zero
dimension. -/
def highlightBox (e : Element) : Option Rect :=
  let rect := e.rect
  let rect :=
    if (rect.width = 0 ∨ rect.height = 0) ∧ e.children.length > 0 then
      match calculateBounds e none with
      | some (minX, minY, maxX, maxY) =>
          { top := minY, left := minX, width := maxX - minX, height := maxY - minY }
      | none => rect
    else rect
  if rect.width = 0 ∨ rect.height = 0 then none else some rect

/-- The whole injected highlight computation: resolve the path from the body,
then compute the overlay box; `none` models that no overlay is appended. -/
def highlightRun (body : Element) (path : List Nat) : Option Rect :=
  match resolvePath body path with
  | none => none
  | some e => highlightBox e

mutual

/-- The recursive `findVisibleChild` of `scrollToElement`: the first element
in preorder (the element itself included) with a sized rectangle. -/
def findVisibleChild : Element → Option Element
  | .mk t a r cs =>
      if sizedRect r then some (Element.mk t a r cs)
      else findVisibleChildList cs

/-- The `for (const child of el.children)` loop of `findVisibleChild`. -/
def findVisibleChildList : List Element → Option Element
  | [] => none
  | c :: cs =>
      match findVisibleChild c with
      | some v => some v
      | none => findVisibleChildList cs

end

/-- The element `scrollToElement` finally scrolls into view: resolve the
path; for an astro-island with children prefer its first sized descendant;
`none` models the silent return when resolution fails. -/
def scrollTarget (body : Element) (path : List Nat) : Option Element :=
  match resolvePath body path with
  | none => none
  | some e =>
      if jsToLower e.tagName == "astro-island" ∧ e.children.length > 0 then
        match findVisibleChild e with
        | some v => some v
        | none => some e
      else some e

mutual

/-- Rectangles of all elements with a sized rectangle in the subtree of an
element, itself included, in the visit order of `calculateBounds`
(auxiliary). -/
def collectSized : Element → List Rect
  | .mk _ _ r cs => (if sizedRect r then [r] else []) ++ collectSizedList cs

/-- Sized rectangles of a forest (auxiliary). -/
def collectSizedList : List Element → List Rect
  | [] => []
  | c :: cs => collectSized c ++ collectSizedList cs

end

mutual

/-- All elements of a DOM subtree in preorder, the element itself included
(auxiliary). -/
def allElems : Element → List Element
  | .mk t a r cs => Element.mk t a r cs :: allElemsList cs

/-- All elements of a forest in preorder (auxiliary). -/
def allElemsList : List Element → List Element
  | [] => []
  | c :: cs => allElems c ++ allElemsList cs

end

/-- The union rectangle of a nonempty rectangle list: least top and left,
greatest right and bottom, width and height the differences (auxiliary,
states what the synthesized bounds are). -/
def unionRect (r : Rect) (rs : List Rect) : Rect :=
  let minX := rs.foldl (fun a x => min a x.left) r.left
  let minY := rs.foldl (fun a x => min a x.top) r.top
  let maxX := rs.foldl (fun a x => max a x.right) r.right
  let maxY := rs.foldl (fun a x => max a x.bottom) r.bottom
  { top := minY, left := minX, width := maxX - minX, height := maxY - minY }

/-- The session state read by the keyboard handler: the currently filtered
tree, the flattened visible list, the selection, and the expanded id set. -/
structure KeyState where
  filteredTree : Option TreeNode
  visibleNodes : List TreeNode
  selectedNode : Option TreeNode
  expandedNodes : List String

/-- The `toggleNode` callback of the panel: delete the id when present,
insert it otherwise. -/
def toggleNode (expandedNodes : List String) (nodeId : String) : List String :=
  if expandedNodes.contains nodeId then setDelete expandedNodes nodeId
  else setAdd expandedNodes nodeId

/-- The ArrowLeft branch of `handleKeyDown`: collapse an expanded selected
node with children, otherwise move the selection to the parent found by
`findParent` on the filtered tree.  The second component is the path passed
to `scrollToElement`, `none` when no scroll is requested. -/
def handleArrowLeft (st : KeyState) : KeyState × Option (List Nat) :=
  match st.filteredTree with
  | none => (st, none)
  | some filteredTree =>
      if st.visibleNodes.length = 0 then (st, none)
      else
        match st.selectedNode with
        | none => (st, none)
        | some selectedNode =>
            if setHas st.expandedNodes selectedNode.id ∧
                selectedNode.children.length > 0 then
              ({ st with expandedNodes := toggleNode st.expandedNodes selectedNode.id },
               none)
            else
              match findParent filteredTree selectedNode.id none with
              | some parent =>
                  ({ st with selectedNode := some parent }, some parent.path)
              | none => (st, none)

/-- Induction principle for DOM elements with the hypothesis available for
every child. -/
theorem elementInduction (P : Element → Prop)
    (h : ∀ t a r cs, (∀ c ∈ cs, P c) → P (Element.mk t a r cs)) :
    ∀ e, P e
  | .mk t a r cs =>
      h t a r cs (fun c hmem => elementInduction P h c)
termination_by e => sizeOf e
decreasing_by
  have := List.sizeOf_lt_of_mem hmem
  simp only [Element.mk.sizeOf_spec]
  omega

/-- Induction principle for snapshot tree nodes with the hypothesis
available for every child. -/
theorem treeNodeInduction (P : TreeNode → Prop)
    (h : ∀ d cs, (∀ c ∈ cs, P c) → P (TreeNode.mk d cs)) :
    ∀ t, P t
  | .mk d cs =>
      h d cs (fun c hmem => treeNodeInduction P h c)
termination_by t => sizeOf t
decreasing_by
  have := List.sizeOf_lt_of_mem hmem
  simp only [TreeNode.mk.sizeOf_spec]
  omega

@[simp] theorem elementChildren_mk (t : String) (a : List (String × String))
    (r : Rect) (cs : List Element) : (Element.mk t a r cs).children = cs := rfl

@[simp] theorem Element.rect_mk (t : String) (a : List (String × String))
    (r : Rect) (cs : List Element) : (Element.mk t a r cs).rect = r := rfl

theorem self_mem_allNodes (t : TreeNode) : t ∈ allNodes t := by
  cases t with
  | mk d cs => simp [allNodes]

theorem mem_allNodesList_of_mem {c : TreeNode} {cs : List TreeNode}
    {n : TreeNode} (hc : c ∈ cs) (hn : n ∈ allNodes c) :
    n ∈ allNodesList cs := by
  induction cs with
  | nil => cases hc
  | cons hd tl ih =>
      rcases List.mem_cons.mp hc with h | h
      · subst h
        exact List.mem_append.mpr (Or.inl hn)
      · exact List.mem_append.mpr (Or.inr (ih h))

theorem hasIslandDescendantList_eq_any (cs : List TreeNode) :
    hasIslandDescendantList cs = cs.any hasIslandDescendant := by
  induction cs with
  | nil => rfl
  | cons hd tl ih => simp [hasIslandDescendantList, ih]

theorem mem_setAdd {s : List String} {id x : String} :
    x ∈ setAdd s id ↔ x ∈ s ∨ x = id := by
  unfold setAdd
  by_cases h : s.contains id
  · rw [if_pos h]
    constructor
    · exact Or.inl
    · rintro (hx | rfl)
      · exact hx
      · simpa using h
  · rw [if_neg h]
    simp

theorem mem_of_mem_setAdd {s : List String} {id x : String}
    (hx : x ∈ s) : x ∈ setAdd s id := mem_setAdd.mpr (Or.inl hx)

theorem buildTree_path (parse : String → Option Json) (e : Element) (d : Nat)
    (p : List Nat) (c : Nat) : ((buildTree parse e d p c).1).path = p := by
  cases e with
  | mk t a r cs => rfl

theorem buildTree_depth (parse : String → Option Json) (e : Element) (d : Nat)
    (p : List Nat) (c : Nat) : ((buildTree parse e d p c).1).depth = d := by
  cases e with
  | mk t a r cs => rfl

theorem buildTree_children (parse : String → Option Json) (t : String)
    (a : List (String × String)) (r : Rect) (cs : List Element) (d : Nat)
    (p : List Nat) (c : Nat) :
    ((buildTree parse (.mk t a r cs) d p c).1).children =
      (buildChildren parse cs d p 0 (c + 1)).1 := rfl

theorem buildTree_framework (parse : String → Option Json) (t : String)
    (a : List (String × String)) (r : Rect) (cs : List Element) (d : Nat)
    (p : List Nat) (c : Nat) :
    ((buildTree parse (.mk t a r cs) d p c).1).data.framework =
      (if (jsToLower t == "astro-island") = true then
        detectFramework (jsOrString ((Element.mk t a r cs).getAttribute "renderer-url") "")
      else none) := rfl

theorem buildChildren_length (parse : String → Option Json)
    (es : List Element) : ∀ (d : Nat) (p : List Nat) (k c : Nat),
    ((buildChildren parse es d p k c).1).length = es.length := by
  induction es with
  | nil => intro d p k c; rfl
  | cons e es ih =>
      intro d p k c
      show ((buildTree parse e (d+1) (p ++ [k]) c).1 ::
        (buildChildren parse es d p (k+1)
          ((buildTree parse e (d+1) (p ++ [k]) c).2)).1).length = es.length + 1
      simp [ih]

theorem mem_allNodes_buildChildren (parse : String → Option Json)
    (es : List Element) : ∀ (d : Nat) (p : List Nat) (k c : Nat)
    (n : TreeNode),
    n ∈ allNodesList ((buildChildren parse es d p k c).1) →
    ∃ e ∈ es, ∃ (j c2 : Nat),
      n ∈ allNodes ((buildTree parse e (d + 1) (p ++ [j]) c2).1) := by
  induction es with
  | nil => intro d p k c n h; cases h
  | cons e es ih =>
      intro d p k c n h
      have h2 : n ∈ allNodes ((buildTree parse e (d+1) (p ++ [k]) c).1) ++
          allNodesList ((buildChildren parse es d p (k+1)
            ((buildTree parse e (d+1) (p ++ [k]) c).2)).1) := h
      rcases List.mem_append.mp h2 with h3 | h3
      · exact ⟨e, List.mem_cons_self e es, k, c, h3⟩
      · rcases ih d p (k+1) _ n h3 with ⟨e2, he2, j, c2, hn⟩
        exact ⟨e2, List.mem_cons_of_mem e he2, j, c2, hn⟩

theorem detectFramework_ne_Preact (renderer : String) :
    detectFramework renderer ≠ some "Preact" := by
  unfold detectFramework
  by_cases h1 : (jsIncludes renderer "react" || jsIncludes renderer "client.C") = true
  · rw [if_pos h1]
    intro h
    exact absurd (Option.some.inj h) (by decide)
  · rw [if_neg h1]
    have hre : jsIncludes renderer "react" = false := by
      cases hx : jsIncludes renderer "react" with
      | false => rfl
      | true => exact absurd (by rw [hx]; rfl) h1
    have hpre : jsIncludes renderer "preact" = false := by
      cases hx : jsIncludes renderer "preact" with
      | false => rfl
      | true =>
          exfalso
          have hp : ("preact".data <:+: renderer.data) := of_decide_eq_true hx
          have hr : ("react".data <:+: "preact".data) := by decide
          have : ("react".data <:+: renderer.data) := hr.trans hp
          rw [show jsIncludes renderer "react" = decide ("react".data <:+: renderer.data) from rfl,
            decide_eq_true this] at hre
          cases hre
    by_cases h2 : jsIncludes renderer "vue" = true
    · rw [if_pos h2]; intro h; exact absurd (Option.some.inj h) (by decide)
    · rw [if_neg h2]
      by_cases h3 : jsIncludes renderer "svelte" = true
      · rw [if_pos h3]; intro h; exact absurd (Option.some.inj h) (by decide)
      · rw [if_neg h3]
        by_cases h4 : jsIncludes renderer "solid" = true
        · rw [if_pos h4]; intro h; exact absurd (Option.some.inj h) (by decide)
        · rw [if_neg h4]
          rw [if_neg (by rw [hpre]; exact Bool.false_ne_true)]
          exact fun h => Option.noConfusion h

theorem buildTree_no_Preact (parse : String → Option Json) (e : Element) :
    ∀ (d : Nat) (p : List Nat) (c : Nat) (n : TreeNode),
    n ∈ allNodes ((buildTree parse e d p c).1) →
    n.data.framework ≠ some "Preact" := by
  induction e using elementInduction with
  | h t a r cs ih =>
      intro d p c n hn
      have hsplit : n = (buildTree parse (.mk t a r cs) d p c).1 ∨
          n ∈ allNodesList ((buildChildren parse cs d p 0 (c + 1)).1) := by
        have : allNodes ((buildTree parse (.mk t a r cs) d p c).1) =
            (buildTree parse (.mk t a r cs) d p c).1 ::
              allNodesList ((buildChildren parse cs d p 0 (c + 1)).1) := by
          rw [show allNodes ((buildTree parse (.mk t a r cs) d p c).1) =
            (buildTree parse (.mk t a r cs) d p c).1 ::
              allNodesList ((buildTree parse (.mk t a r cs) d p c).1).children from
                by cases hb : (buildTree parse (.mk t a r cs) d p c).1 with
                   | mk dd cc => rfl]
          rw [buildTree_children]
        rw [this] at hn
        exact List.mem_cons.mp hn
      rcases hsplit with rfl | hmem
      · rw [buildTree_framework]
        by_cases hi : (jsToLower t == "astro-island") = true
        · rw [if_pos hi]; exact detectFramework_ne_Preact _
        · rw [if_neg hi]; exact fun h => Option.noConfusion h
      · rcases mem_allNodes_buildChildren parse cs d p 0 (c+1) n hmem with
          ⟨e2, he2, j, c2, hn2⟩
        exact ih e2 he2 (d+1) (p ++ [j]) c2 n hn2

/-- C10: for every node the builder produces, the framework field is never
Preact: the renderer-url checks run with React first by substring matching,
and a renderer-url containing the substring preact also contains react, so
the React branch wins and the Preact branch is unreachable. -/
theorem claim_C10 (parse : String → Option Json) (body : Element)
    (n : TreeNode) (hn : n ∈ allNodes (buildTreeInPage parse body)) :
    n.data.framework ≠ some "Preact" :=
  buildTree_no_Preact parse body 0 [] 0 n hn

/-- Fixture: a parse function modelling JSON.parse failing on every input. -/
def noParse : String → Option Json := fun _ => none

/-- Fixture: an island whose renderer-url contains the substring preact. -/
def exPreactIsland : Element :=
  .mk "astro-island" [("renderer-url", "/node_modules/preact/client.js")]
    ⟨0, 0, 0, 0⟩ []

theorem claim_C10_witness :
    (buildTreeInPage noParse exPreactIsland).data.framework ≠ some "Preact" :=
  claim_C10 noParse exPreactIsland _ (self_mem_allNodes _)

/-- C7: when path resolution fails the highlight draws no overlay and the
scroller has no target, and when the resolved element yields no sized box
the highlight draws no overlay; both injected functions are total, so no
error is surfaced and the session state, which they never receive, is
unchanged. -/
theorem claim_C7 (body : Element) (path : List Nat) :
    (resolvePath body path = none →
      highlightRun body path = none ∧ scrollTarget body path = none) ∧
    (∀ e, resolvePath body path = some e → highlightBox e = none →
      highlightRun body path = none) := by
  constructor
  · intro h
    constructor
    · unfold highlightRun; rw [h]
    · unfold scrollTarget; rw [h]
  · intro e he hb
    unfold highlightRun
    rw [he]
    exact hb

/-- Fixture: a body with one zero-sized childless child. -/
def exBodyC7 : Element :=
  .mk "body" [] ⟨0, 0, 0, 0⟩ [.mk "div" [] ⟨0, 0, 0, 0⟩ []]

theorem claim_C7_witness :
    (highlightRun exBodyC7 [4] = none ∧ scrollTarget exBodyC7 [4] = none) ∧
      highlightRun exBodyC7 [0] = none :=
  ⟨(claim_C7 exBodyC7 [4]).1 (by rfl),
   (claim_C7 exBodyC7 [0]).2 (.mk "div" [] ⟨0, 0, 0, 0⟩ []) (by rfl) (by rfl)⟩

theorem mem_allNodesList_decomp {n : TreeNode} {l : List TreeNode}
    (h : n ∈ allNodesList l) : ∃ x ∈ l, n ∈ allNodes x := by
  induction l with
  | nil => cases h
  | cons hd tl ih =>
      rcases List.mem_append.mp h with h2 | h2
      · exact ⟨hd, List.mem_cons_self hd tl, h2⟩
      · rcases ih h2 with ⟨x, hx, hn⟩
        exact ⟨x, List.mem_cons_of_mem hd hx, hn⟩

theorem mem_filterIslandsOnlyList {x : TreeNode} {cs : List TreeNode}
    (h : x ∈ filterIslandsOnlyList cs) :
    ∃ c ∈ cs, filterIslandsOnly c = some x := by
  induction cs with
  | nil => cases h
  | cons c cs ih =>
      revert h
      show x ∈ (match filterIslandsOnly c with
        | some t => t :: filterIslandsOnlyList cs
        | none => filterIslandsOnlyList cs) → _
      cases hc : filterIslandsOnly c with
      | some t =>
          intro h
          rcases List.mem_cons.mp h with rfl | h2
          · exact ⟨c, List.mem_cons_self c cs, hc⟩
          · rcases ih h2 with ⟨c2, hc2, hx⟩
            exact ⟨c2, List.mem_cons_of_mem c hc2, hx⟩
      | none =>
          intro h
          rcases ih h with ⟨c2, hc2, hx⟩
          exact ⟨c2, List.mem_cons_of_mem c hc2, hx⟩

theorem filterIslandsOnlyList_eq_nil_iff (cs : List TreeNode)
    (h : ∀ c ∈ cs, (filterIslandsOnly c = none ↔ hasIslandDescendant c = false)) :
    filterIslandsOnlyList cs = [] ↔ hasIslandDescendantList cs = false := by
  induction cs with
  | nil => exact ⟨fun _ => rfl, fun _ => rfl⟩
  | cons c cs ih =>
      have hc := h c (List.mem_cons_self c cs)
      have ih2 := ih (fun x hx => h x (List.mem_cons_of_mem c hx))
      show (match filterIslandsOnly c with
        | some t => t :: filterIslandsOnlyList cs
        | none => filterIslandsOnlyList cs) = [] ↔
          (hasIslandDescendant c || hasIslandDescendantList cs) = false
      cases hfc : filterIslandsOnly c with
      | some t =>
          have : hasIslandDescendant c = true := by
            cases hi : hasIslandDescendant c with
            | true => rfl
            | false => rw [hc.mpr hi] at hfc; cases hfc
          simp [this]
      | none =>
          have : hasIslandDescendant c = false := hc.mp hfc
          simp [this, ih2]

theorem filterIslandsOnly_eq_none_iff :
    ∀ t, filterIslandsOnly t = none ↔ hasIslandDescendant t = false := by
  intro t
  induction t using treeNodeInduction with
  | h d cs ih =>
      have hlist := filterIslandsOnlyList_eq_nil_iff cs ih
      show (if d.isAstroIsland = true then
          some (TreeNode.mk d (filterIslandsOnlyList cs))
        else if (filterIslandsOnlyList cs).length > 0 then
          some (TreeNode.mk d (filterIslandsOnlyList cs))
        else none) = none ↔
          (d.isAstroIsland || hasIslandDescendantList cs) = false
      cases hi : d.isAstroIsland with
      | true => simp
      | false =>
          simp only [if_false, Bool.false_or]
          by_cases hlen : (filterIslandsOnlyList cs).length > 0
          · rw [if_pos hlen]
            constructor
            · intro hx; cases hx
            · intro hx
              have : filterIslandsOnlyList cs = [] := hlist.mpr hx
              rw [this] at hlen
              cases hlen
          · rw [if_neg hlen]
            have hnil : filterIslandsOnlyList cs = [] := by
              cases hx : filterIslandsOnlyList cs with
              | nil => rfl
              | cons a l => rw [hx] at hlen; exact absurd (by simp) hlen
            simp [hlist.mp hnil]

theorem countIslands_eq_zero_of_no_island :
    ∀ t, hasIslandDescendant t = false → countIslands t = 0 := by
  intro t
  induction t using treeNodeInduction with
  | h d cs ih =>
      intro hno
      have hno2 : (d.isAstroIsland || hasIslandDescendantList cs) = false := hno
      have hni : d.isAstroIsland = false := by
        cases hx : d.isAstroIsland with
        | false => rfl
        | true => rw [hx] at hno2; cases hno2
      have hnl : hasIslandDescendantList cs = false := by
        rw [hni] at hno2; simpa using hno2
      have hlist : ∀ l, (∀ c ∈ l, c ∈ cs) → hasIslandDescendantList l = false →
          countIslandsList l = 0 := by
        intro l
        induction l with
        | nil => intro _ _; rfl
        | cons c l ihl =>
            intro hsub hfalse
            have hfc : (hasIslandDescendant c || hasIslandDescendantList l) = false := hfalse
            have h1 : hasIslandDescendant c = false := by
              cases hx : hasIslandDescendant c with
              | false => rfl
              | true => rw [hx] at hfc; cases hfc
            have h2 : hasIslandDescendantList l = false := by
              rw [h1] at hfc; simpa using hfc
            show countIslands c + countIslandsList l = 0
            rw [ih c (hsub c (List.mem_cons_self c l)) h1,
              ihl (fun x hx => hsub x (List.mem_cons_of_mem c hx)) h2]
      show (if d.isAstroIsland = true then 1 else 0) + countIslandsList cs = 0
      rw [hni]
      simpa using hlist cs (fun _ hx => hx) hnl

theorem countIslandsList_filter (cs : List TreeNode)
    (h : ∀ c ∈ cs, ∀ t', filterIslandsOnly c = some t' →
      countIslands t' = countIslands c) :
    countIslandsList (filterIslandsOnlyList cs) = countIslandsList cs := by
  induction cs with
  | nil => rfl
  | cons c cs ih =>
      have ih2 := ih (fun x hx => h x (List.mem_cons_of_mem c hx))
      show countIslandsList (match filterIslandsOnly c with
        | some t => t :: filterIslandsOnlyList cs
        | none => filterIslandsOnlyList cs) =
          countIslands c + countIslandsList cs
      cases hfc : filterIslandsOnly c with
      | some t =>
          show countIslands t + countIslandsList (filterIslandsOnlyList cs) = _
          rw [h c (List.mem_cons_self c cs) t hfc, ih2]
      | none =>
          rw [ih2]
          have : countIslands c = 0 :=
            countIslands_eq_zero_of_no_island c
              ((filterIslandsOnly_eq_none_iff c).mp hfc)
          omega

theorem filterIslandsOnly_countIslands :
    ∀ t t', filterIslandsOnly t = some t' → countIslands t' = countIslands t := by
  intro t
  induction t using treeNodeInduction with
  | h d cs ih =>
      intro t' ht'
      have hlist := countIslandsList_filter cs ih
      revert ht'
      show (if d.isAstroIsland = true then
          some (TreeNode.mk d (filterIslandsOnlyList cs))
        else if (filterIslandsOnlyList cs).length > 0 then
          some (TreeNode.mk d (filterIslandsOnlyList cs))
        else none) = some t' → _
      cases hi : d.isAstroIsland with
      | true =>
          intro ht'
          have : TreeNode.mk d (filterIslandsOnlyList cs) = t' :=
            Option.some.inj (by simpa using ht')
          subst this
          show (if d.isAstroIsland = true then 1 else 0) + countIslandsList (filterIslandsOnlyList cs) =
            (if d.isAstroIsland = true then 1 else 0) + countIslandsList cs
          rw [hlist]
      | false =>
          rw [if_neg (by simp)]
          by_cases hlen : (filterIslandsOnlyList cs).length > 0
          · rw [if_pos hlen]
            intro ht'
            have : TreeNode.mk d (filterIslandsOnlyList cs) = t' := Option.some.inj ht'
            subst this
            show (if d.isAstroIsland = true then 1 else 0) + countIslandsList (filterIslandsOnlyList cs) =
              (if d.isAstroIsland = true then 1 else 0) + countIslandsList cs
            rw [hlist]
          · rw [if_neg hlen]
            intro ht'
            cases ht'

theorem filterIslandsOnly_retained_island :
    ∀ t t', filterIslandsOnly t = some t' →
      ∀ n ∈ allNodes t', hasIslandDescendant n = true := by
  intro t
  induction t using treeNodeInduction with
  | h d cs ih =>
      intro t' ht' n hn
      have hform : t' = TreeNode.mk d (filterIslandsOnlyList cs) ∧
          (d.isAstroIsland = true ∨ (filterIslandsOnlyList cs).length > 0) := by
        revert ht'
        show (if d.isAstroIsland = true then
            some (TreeNode.mk d (filterIslandsOnlyList cs))
          else if (filterIslandsOnlyList cs).length > 0 then
            some (TreeNode.mk d (filterIslandsOnlyList cs))
          else none) = some t' → _
        cases hi : d.isAstroIsland with
        | true =>
            intro ht'
            exact ⟨(Option.some.inj (by simpa using ht')).symm, Or.inl rfl⟩
        | false =>
            rw [if_neg (by simp)]
            by_cases hlen : (filterIslandsOnlyList cs).length > 0
            · rw [if_pos hlen]
              intro ht'
              exact ⟨(Option.some.inj ht').symm, Or.inr hlen⟩
            · rw [if_neg hlen]
              intro ht'
              cases ht'
      obtain ⟨rfl, hkeep⟩ := hform
      have hmembers : ∀ x ∈ filterIslandsOnlyList cs, hasIslandDescendant x = true := by
        intro x hx
        rcases mem_filterIslandsOnlyList hx with ⟨c, hc, hcx⟩
        exact ih c hc x hcx x (self_mem_allNodes x)
      rcases List.mem_cons.mp hn with rfl | hn2
      · show (d.isAstroIsland || hasIslandDescendantList (filterIslandsOnlyList cs)) = true
        rcases hkeep with hi | hlen
        · simp [hi]
        · rcases hx : filterIslandsOnlyList cs with _ | ⟨a, l⟩
          · rw [hx] at hlen; cases hlen
          · have ha : hasIslandDescendant a = true := by
              apply hmembers
              rw [hx]; exact List.mem_cons_self a l
            show (d.isAstroIsland || hasIslandDescendantList (a :: l)) = true
            show (d.isAstroIsland || (hasIslandDescendant a || hasIslandDescendantList l)) = true
            simp [ha]
      · rcases mem_allNodesList_decomp hn2 with ⟨x, hx, hnx⟩
        rcases mem_filterIslandsOnlyList hx with ⟨c, hc, hcx⟩
        exact ih c hc x hcx n hnx

/-- Fixture: an island root node with one childless non-island child. -/
def dIslandC1 : NodeData :=
  ⟨"node-0", "astro-island", true, some "Counter", some "load", none, none, 0, []⟩

/-- Fixture: a childless non-island node. -/
def dDivC1 : NodeData := ⟨"node-1", "div", false, none, none, none, none, 1, [0]⟩

/-- Fixture tree for the islands-only filter: island root, plain child. -/
def exTreeC1 : TreeNode := .mk dIslandC1 [.mk dDivC1 []]

/-- The filter output on the fixture tree: the plain child is dropped. -/
def exFilteredC1 : TreeNode := .mk dIslandC1 []

/-- C1 counterexample: on an island root with one non-island childless
child, the filter keeps the island but drops the child, so the island does
not keep its full original subtree unfiltered beneath it as claimed. -/
theorem claim_C1_counterexample :
    (filterIslandsOnly exTreeC1).map (fun t => t.children.length) = some 0 ∧
      exTreeC1.children.length = 1 := ⟨rfl, rfl⟩

/-- C1 amended: the filter returns no tree exactly when the root has no
island anywhere; when it returns a tree, every island of the original is
preserved (the island count is unchanged) and every retained node is an
island or has an island descendant, but the subtree beneath a retained
island is filtered by the same rule rather than kept verbatim. -/
theorem claim_C1 (t : TreeNode) :
    (filterIslandsOnly t = none ↔ hasIslandDescendant t = false) ∧
    (∀ t', filterIslandsOnly t = some t' →
      countIslands t' = countIslands t ∧
      ∀ n ∈ allNodes t', hasIslandDescendant n = true) :=
  ⟨filterIslandsOnly_eq_none_iff t,
   fun t' ht' => ⟨filterIslandsOnly_countIslands t t' ht',
     filterIslandsOnly_retained_island t t' ht'⟩⟩

theorem claim_C1_witness :
    countIslands exFilteredC1 = countIslands exTreeC1 ∧
      ∀ n ∈ allNodes exFilteredC1, hasIslandDescendant n = true :=
  (claim_C1 exTreeC1).2 exFilteredC1 (by rfl)

theorem collectExpandedLoop_mono (cs : List TreeNode)
    (h : ∀ c ∈ cs, ∀ res id, id ∈ res → id ∈ collectExpandedNodes c res) :
    ∀ res id, id ∈ res → id ∈ collectExpandedLoop cs res := by
  induction cs with
  | nil => intro res id hid; exact hid
  | cons c cs ih =>
      intro res id hid
      have ih2 := ih (fun x hx => h x (List.mem_cons_of_mem c hx))
      show id ∈ collectExpandedLoop cs
        (if hasIslandDescendant c then collectExpandedNodes c res else res)
      apply ih2
      by_cases hc : hasIslandDescendant c = true
      · rw [if_pos hc]
        exact h c (List.mem_cons_self c cs) res id hid
      · rw [if_neg hc]
        exact hid

theorem collectExpandedNodes_mono :
    ∀ t res id, id ∈ res → id ∈ collectExpandedNodes t res := by
  intro t
  induction t using treeNodeInduction with
  | h d cs ih =>
      intro res id hid
      show id ∈ collectExpandedLoop cs (setAdd res d.id)
      exact collectExpandedLoop_mono cs ih (setAdd res d.id) id
        (mem_of_mem_setAdd hid)

theorem root_mem_collectExpandedNodes (t : TreeNode) (res : List String) :
    t.id ∈ collectExpandedNodes t res := by
  cases t with
  | mk d cs =>
      show d.id ∈ collectExpandedLoop cs (setAdd res d.id)
      exact collectExpandedLoop_mono cs
        (fun c _ => collectExpandedNodes_mono c) (setAdd res d.id) d.id
        (mem_setAdd.mpr (Or.inr rfl))

theorem collectExpandedLoop_spec (cs : List TreeNode)
    (h : ∀ c ∈ cs, ∀ res id, id ∈ collectExpandedNodes c res →
      id ∈ res ∨ id = c.id ∨
        ∃ n ∈ allNodes c, n.id = id ∧ hasIslandDescendant n = true) :
    ∀ res id, id ∈ collectExpandedLoop cs res →
      id ∈ res ∨ ∃ c ∈ cs, hasIslandDescendant c = true ∧
        ∃ n ∈ allNodes c, n.id = id ∧ hasIslandDescendant n = true := by
  induction cs with
  | nil => intro res id hid; exact Or.inl hid
  | cons c cs ih =>
      intro res id hid
      have ih2 := ih (fun x hx => h x (List.mem_cons_of_mem c hx))
      have hid2 : id ∈ collectExpandedLoop cs
          (if hasIslandDescendant c then collectExpandedNodes c res else res) := hid
      rcases ih2 _ id hid2 with hin | ⟨c2, hc2, hisl, n, hn, hnid, hni⟩
      · by_cases hc : hasIslandDescendant c = true
        · rw [if_pos hc] at hin
          rcases h c (List.mem_cons_self c cs) res id hin with hr | hr | ⟨n, hn, hnid, hni⟩
          · exact Or.inl hr
          · exact Or.inr ⟨c, List.mem_cons_self c cs, hc,
              c, self_mem_allNodes c, hr.symm, hc⟩
          · exact Or.inr ⟨c, List.mem_cons_self c cs, hc, n, hn, hnid, hni⟩
        · rw [if_neg hc] at hin
          exact Or.inl hin
      · exact Or.inr ⟨c2, List.mem_cons_of_mem c hc2, hisl, n, hn, hnid, hni⟩

theorem collectExpandedNodes_spec :
    ∀ t res id, id ∈ collectExpandedNodes t res →
      id ∈ res ∨ id = t.id ∨
        ∃ n ∈ allNodes t, n.id = id ∧ hasIslandDescendant n = true := by
  intro t
  induction t using treeNodeInduction with
  | h d cs ih =>
      intro res id hid
      have hid2 : id ∈ collectExpandedLoop cs (setAdd res d.id) := hid
      rcases collectExpandedLoop_spec cs ih (setAdd res d.id) id hid2 with
        hin | ⟨c, hc, _, n, hn, hnid, hni⟩
      · rcases mem_setAdd.mp hin with hr | hr
        · exact Or.inl hr
        · exact Or.inr (Or.inl hr)
      · exact Or.inr (Or.inr ⟨n,
          List.mem_cons_of_mem _ (mem_allNodesList_of_mem hc hn), hnid, hni⟩)

/-- Fixture: a tree consisting of one non-island node and nothing else. -/
def exSoloC6 : TreeNode :=
  .mk ⟨"node-0", "div", false, none, none, none, none, 0, []⟩ []

/-- C6 counterexample: on a tree with no island at all, the auto-expand set
still contains the root id, which then lies on no path from the root to an
island, so the claimed containment law fails as stated. -/
theorem claim_C6_counterexample :
    collectExpandedNodes exSoloC6 [] = ["node-0"] ∧
      countIslands exSoloC6 = 0 ∧
      ¬ (∀ id ∈ collectExpandedNodes exSoloC6 [],
          ∃ n ∈ allNodes exSoloC6, n.id = id ∧ hasIslandDescendant n = true) :=
  ⟨rfl, rfl, by decide⟩

/-- C6 amended: the auto-expand set always contains the root id, and every
other id in it is the id of a node with an island self-or-descendant, hence
lies on some path from the root to an island; the root id itself is included
even when the tree contains no island anywhere. -/
theorem claim_C6 (t : TreeNode) :
    t.id ∈ collectExpandedNodes t [] ∧
    ∀ id ∈ collectExpandedNodes t [], id = t.id ∨
      ∃ n ∈ allNodes t, n.id = id ∧ hasIslandDescendant n = true := by
  refine ⟨root_mem_collectExpandedNodes t [], fun id hid => ?_⟩
  rcases collectExpandedNodes_spec t [] id hid with h | h | h
  · cases h
  · exact Or.inl h
  · exact Or.inr h

/-- Fixture: a non-island root with one island child. -/
def exRootIslandC6 : TreeNode :=
  .mk ⟨"node-0", "body", false, none, none, none, none, 0, []⟩
    [.mk ⟨"node-1", "astro-island", true, some "Counter", some "load", none,
      none, 1, [0]⟩ []]

theorem claim_C6_witness :
    exRootIslandC6.id ∈ collectExpandedNodes exRootIslandC6 [] ∧
      ("node-1" = exRootIslandC6.id ∨
        ∃ n ∈ allNodes exRootIslandC6, n.id = "node-1" ∧
          hasIslandDescendant n = true) :=
  ⟨(claim_C6 exRootIslandC6).1,
   (claim_C6 exRootIslandC6).2 "node-1" (by decide)⟩

theorem flattenVisibleLoop_acc (expandedNodes : List String)
    (cs : List TreeNode)
    (hpt : ∀ c ∈ cs, ∀ acc, flattenVisibleTree c expandedNodes acc =
      acc ++ flattenVisibleTree c expandedNodes []) :
    ∀ acc, flattenVisibleLoop cs expandedNodes acc =
      acc ++ flattenVisibleLoop cs expandedNodes [] := by
  induction cs with
  | nil => intro acc; exact (List.append_nil acc).symm
  | cons c cs ih =>
      intro acc
      have ih2 := ih (fun x hx => hpt x (List.mem_cons_of_mem c hx))
      show flattenVisibleLoop cs expandedNodes
          (flattenVisibleTree c expandedNodes acc) = _
      rw [hpt c (List.mem_cons_self c cs) acc,
        ih2 (acc ++ flattenVisibleTree c expandedNodes [])]
      show _ = acc ++ flattenVisibleLoop cs expandedNodes
        (flattenVisibleTree c expandedNodes [])
      rw [ih2 (flattenVisibleTree c expandedNodes []), List.append_assoc]

theorem flattenVisibleTree_acc (expandedNodes : List String) :
    ∀ t acc, flattenVisibleTree t expandedNodes acc =
      acc ++ flattenVisibleTree t expandedNodes [] := by
  intro t
  induction t using treeNodeInduction with
  | h d cs ih =>
      intro acc
      show (if setHas expandedNodes d.id = true then
          flattenVisibleLoop cs expandedNodes (acc ++ [TreeNode.mk d cs])
        else acc ++ [TreeNode.mk d cs]) =
        acc ++ (if setHas expandedNodes d.id = true then
          flattenVisibleLoop cs expandedNodes ([] ++ [TreeNode.mk d cs])
        else [] ++ [TreeNode.mk d cs])
      by_cases hh : setHas expandedNodes d.id = true
      · rw [if_pos hh, if_pos hh,
          flattenVisibleLoop_acc expandedNodes cs ih (acc ++ [TreeNode.mk d cs]),
          flattenVisibleLoop_acc expandedNodes cs ih ([] ++ [TreeNode.mk d cs])]
        simp
      · rw [if_neg hh, if_neg hh]
        simp

theorem flattenVisibleLoop_length (expandedNodes : List String)
    (cs : List TreeNode) :
    (flattenVisibleLoop cs expandedNodes []).length =
      (cs.map (fun c => (flattenVisibleTree c expandedNodes []).length)).sum := by
  induction cs with
  | nil => rfl
  | cons c cs ih =>
      show (flattenVisibleLoop cs expandedNodes
        (flattenVisibleTree c expandedNodes [])).length = _
      rw [flattenVisibleLoop_acc expandedNodes cs
        (fun x _ => flattenVisibleTree_acc expandedNodes x)
        (flattenVisibleTree c expandedNodes [])]
      simp [ih]

theorem flattenVisibleTree_length (expandedNodes : List String)
    (d : NodeData) (cs : List TreeNode) :
    (flattenVisibleTree (TreeNode.mk d cs) expandedNodes []).length =
      1 + (if setHas expandedNodes d.id = true then
        (cs.map (fun c => (flattenVisibleTree c expandedNodes []).length)).sum
      else 0) := by
  show (if setHas expandedNodes d.id = true then
      flattenVisibleLoop cs expandedNodes ([] ++ [TreeNode.mk d cs])
    else [] ++ [TreeNode.mk d cs]).length = _
  by_cases hh : setHas expandedNodes d.id = true
  · rw [if_pos hh, if_pos hh]
    rw [show ([] : List TreeNode) ++ [TreeNode.mk d cs] = [TreeNode.mk d cs] from rfl,
      flattenVisibleLoop_acc expandedNodes cs
        (fun x _ => flattenVisibleTree_acc expandedNodes x) [TreeNode.mk d cs]]
    rw [List.length_append, flattenVisibleLoop_length]
    simp [Nat.add_comm]
  · rw [if_neg hh, if_neg hh]
    rfl

theorem visiblePos_cons {cs : List TreeNode} {j : Nat} {c : TreeNode}
    (d : NodeData) (expandedNodes : List String) (q : List Nat)
    (hc : cs[j]? = some c) :
    visiblePos (TreeNode.mk d cs) expandedNodes (j :: q) =
      (setHas expandedNodes d.id && visiblePos c expandedNodes q) := by
  show ((([] : List Nat) :: (ancestorPaths q).map (fun p => j :: p)).all
    (fun p => match nodeAtPos (TreeNode.mk d cs) p with
      | some n => setHas expandedNodes n.id
      | none => false)) = _
  rw [List.all_cons, List.all_map]
  show (setHas expandedNodes d.id &&
      (ancestorPaths q).all ((fun p => match nodeAtPos (TreeNode.mk d cs) p with
        | some n => setHas expandedNodes n.id
        | none => false) ∘ (fun p => j :: p))) = _
  congr 1
  show (ancestorPaths q).all
      (fun p => match nodeAtPos (TreeNode.mk d cs) (j :: p) with
        | some n => setHas expandedNodes n.id
        | none => false) = visiblePos c expandedNodes q
  have hstep : ∀ p : List Nat,
      nodeAtPos (TreeNode.mk d cs) (j :: p) = nodeAtPos c p := by
    intro p
    show (match (TreeNode.mk d cs).children[j]? with
      | some x => nodeAtPos x p
      | none => none) = nodeAtPos c p
    rw [treeNodeChildren_mk, hc]
  unfold visiblePos
  congr 1
  funext p
  rw [hstep p]

theorem positionsList_filter_length (d : NodeData) (cs : List TreeNode)
    (expandedNodes : List String) :
    ∀ (suffix : List TreeNode) (k : Nat),
    (∀ m, suffix[m]? = cs[k + m]?) →
    ((positionsList suffix k).filter
      (visiblePos (TreeNode.mk d cs) expandedNodes)).length =
      if setHas expandedNodes d.id = true then
        (suffix.map (fun c => countVisible c expandedNodes)).sum
      else 0 := by
  intro suffix
  induction suffix with
  | nil =>
      intro k hk
      show (0 : Nat) = _
      by_cases hh : setHas expandedNodes d.id = true
      · rw [if_pos hh]; rfl
      · rw [if_neg hh]
  | cons c rest ih =>
      intro k hk
      have hc0 : cs[k]? = some c := by
        have := hk 0
        rw [Nat.add_zero] at this
        simpa using this.symm
      show (((positions c).map (fun q => k :: q) ++
        positionsList rest (k + 1)).filter
          (visiblePos (TreeNode.mk d cs) expandedNodes)).length = _
      rw [List.filter_append, List.length_append]
      have hpart1 : (((positions c).map (fun q => k :: q)).filter
          (visiblePos (TreeNode.mk d cs) expandedNodes)).length =
          if setHas expandedNodes d.id = true then countVisible c expandedNodes
          else 0 := by
        rw [List.filter_map]
        rw [List.length_map]
        have hcong : (positions c).filter
            ((visiblePos (TreeNode.mk d cs) expandedNodes) ∘ (fun q => k :: q)) =
            (positions c).filter
              (fun q => setHas expandedNodes d.id && visiblePos c expandedNodes q) := by
          apply List.filter_congr
          intro q _
          show visiblePos (TreeNode.mk d cs) expandedNodes (k :: q) = _
          rw [visiblePos_cons d expandedNodes q hc0]
        rw [hcong]
        by_cases hh : setHas expandedNodes d.id = true
        · rw [if_pos hh]
          have : (positions c).filter
              (fun q => setHas expandedNodes d.id && visiblePos c expandedNodes q) =
              (positions c).filter (visiblePos c expandedNodes) := by
            apply List.filter_congr
            intro q _
            rw [hh, Bool.true_and]
          rw [this]
          rfl
        · rw [if_neg hh]
          have hfalse : setHas expandedNodes d.id = false :=
            Bool.eq_false_iff.mpr hh
          have : (positions c).filter
              (fun q => setHas expandedNodes d.id && visiblePos c expandedNodes q) =
              ([] : List (List Nat)) := by
            apply List.filter_eq_nil_iff.mpr
            intro q _
            rw [hfalse, Bool.false_and]
            exact Bool.false_ne_true
          rw [this]
          rfl
      have hpart2 := ih (k + 1) (by
        intro m
        have := hk (m + 1)
        rw [show k + (m + 1) = (k + 1) + m from by omega] at this
        simpa using this)
      rw [hpart1, hpart2]
      by_cases hh : setHas expandedNodes d.id = true
      · simp [hh]
      · simp [hh]

theorem countVisible_rec (d : NodeData) (cs : List TreeNode)
    (expandedNodes : List String) :
    countVisible (TreeNode.mk d cs) expandedNodes =
      1 + (if setHas expandedNodes d.id = true then
        (cs.map (fun c => countVisible c expandedNodes)).sum
      else 0) := by
  show ((([] : List Nat) :: positionsList cs 0).filter
    (visiblePos (TreeNode.mk d cs) expandedNodes)).length = _
  rw [List.filter_cons]
  have hroot : visiblePos (TreeNode.mk d cs) expandedNodes [] = true := rfl
  rw [hroot]
  simp only [if_pos trivial, List.length_cons]
  rw [positionsList_filter_length d cs expandedNodes cs 0 (by intro m; simp)]
  omega

/-- C5 amended: the length of flattenVisible equals the total count of nodes
whose strict ancestor chain is fully contained in the expanded set; the root
is one of those counted nodes, so the count is not increased by one again. -/
theorem claim_C5 (t : TreeNode) (expandedNodes : List String) :
    (flattenVisibleTree t expandedNodes []).length =
      countVisible t expandedNodes := by
  induction t using treeNodeInduction with
  | h d cs ih =>
      rw [flattenVisibleTree_length, countVisible_rec]
      by_cases hh : setHas expandedNodes d.id = true
      · rw [if_pos hh, if_pos hh]
        have : cs.map (fun c => (flattenVisibleTree c expandedNodes []).length) =
            cs.map (fun c => countVisible c expandedNodes) :=
          List.map_eq_map_iff.mpr (fun c hc => ih c hc)
        rw [this]
      · rw [if_neg hh, if_neg hh]

/-- Fixture: a one-node tree used against the literal flatten length law. -/
def exSoloC5 : TreeNode :=
  .mk ⟨"node-0", "div", false, none, none, none, none, 0, []⟩ []

/-- C5 counterexample: on a single-node tree with nothing expanded the
flattened list has length 1, but the root itself has an empty ancestor
chain, so the claimed 1-plus-count formula gives 2. -/
theorem claim_C5_counterexample :
    (flattenVisibleTree exSoloC5 [] []).length = 1 ∧
      countVisible exSoloC5 [] = 1 ∧
      ¬ ((flattenVisibleTree exSoloC5 [] []).length =
        1 + countVisible exSoloC5 []) := ⟨rfl, rfl, by decide⟩

theorem calculateBoundsList_eq_foldl (cs : List Element)
    (hpt : ∀ c ∈ cs, ∀ acc, calculateBounds c acc =
      (collectSized c).foldl boundsUpdate acc) :
    ∀ acc, calculateBoundsList cs acc =
      (collectSizedList cs).foldl boundsUpdate acc := by
  induction cs with
  | nil => intro acc; rfl
  | cons c cs ih =>
      intro acc
      have ih2 := ih (fun x hx => hpt x (List.mem_cons_of_mem c hx))
      show calculateBoundsList cs (calculateBounds c acc) = _
      rw [hpt c (List.mem_cons_self c cs) acc, ih2]
      show _ = (collectSized c ++ collectSizedList cs).foldl boundsUpdate acc
      rw [List.foldl_append]

theorem calculateBounds_eq_foldl :
    ∀ (e : Element) (acc : Option (ℤ × ℤ × ℤ × ℤ)),
    calculateBounds e acc = (collectSized e).foldl boundsUpdate acc := by
  intro e
  induction e using elementInduction with
  | h t a r cs ih =>
      intro acc
      show calculateBoundsList cs (if sizedRect r then boundsUpdate acc r else acc) = _
      rw [calculateBoundsList_eq_foldl cs ih]
      show _ = ((if sizedRect r then [r] else []) ++ collectSizedList cs).foldl
        boundsUpdate acc
      rw [List.foldl_append]
      by_cases hs : sizedRect r = true
      · rw [if_pos hs, if_pos hs]
        rfl
      · rw [if_neg hs, if_neg hs]
        rfl

theorem boundsUpdate_foldl_some (rs : List Rect) :
    ∀ (a b c d : ℤ), rs.foldl boundsUpdate (some (a, b, c, d)) =
      some (rs.foldl (fun m x => min m x.left) a,
        rs.foldl (fun m x => min m x.top) b,
        rs.foldl (fun m x => max m x.right) c,
        rs.foldl (fun m x => max m x.bottom) d) := by
  induction rs with
  | nil => intro a b c d; rfl
  | cons r rs ih =>
      intro a b c d
      show rs.foldl boundsUpdate
        (some (min a r.left, min b r.top, max c r.right, max d r.bottom)) = _
      rw [ih]
      rfl

theorem foldl_min_le (f : Rect → ℤ) (rs : List Rect) :
    ∀ a : ℤ, rs.foldl (fun m x => min m (f x)) a ≤ a := by
  induction rs with
  | nil => intro a; exact le_refl a
  | cons r rs ih =>
      intro a
      exact le_trans (ih (min a (f r))) (min_le_left a (f r))

theorem le_foldl_max (f : Rect → ℤ) (rs : List Rect) :
    ∀ a : ℤ, a ≤ rs.foldl (fun m x => max m (f x)) a := by
  induction rs with
  | nil => intro a; exact le_refl a
  | cons r rs ih =>
      intro a
      exact le_trans (le_max_left a (f r)) (ih (max a (f r)))

theorem collectSizedList_char (cs : List Element)
    (hpt : ∀ c ∈ cs, collectSized c =
      ((allElems c).filter (fun x => sizedRect x.rect)).map Element.rect) :
    collectSizedList cs =
      ((allElemsList cs).filter (fun x => sizedRect x.rect)).map Element.rect := by
  induction cs with
  | nil => rfl
  | cons c cs ih =>
      have ih2 := ih (fun x hx => hpt x (List.mem_cons_of_mem c hx))
      show collectSized c ++ collectSizedList cs = _
      rw [hpt c (List.mem_cons_self c cs), ih2]
      show _ = ((allElems c ++ allElemsList cs).filter
        (fun x => sizedRect x.rect)).map Element.rect
      rw [List.filter_append, List.map_append]

theorem collectSized_char : ∀ e : Element,
    collectSized e =
      ((allElems e).filter (fun x => sizedRect x.rect)).map Element.rect := by
  intro e
  induction e using elementInduction with
  | h t a r cs ih =>
      show (if sizedRect r then [r] else []) ++ collectSizedList cs = _
      rw [collectSizedList_char cs ih]
      show _ = ((Element.mk t a r cs :: allElemsList cs).filter
        (fun x => sizedRect x.rect)).map Element.rect
      rw [List.filter_cons, Element.rect_mk]
      by_cases hs : sizedRect r = true
      · rw [if_pos hs, if_pos (by simpa using hs)]
        rfl
      · rw [if_neg hs, if_neg (by simpa using hs)]
        rfl

theorem mem_collectSized_sized {e : Element} {r : Rect}
    (h : r ∈ collectSized e) : sizedRect r = true := by
  rw [collectSized_char] at h
  rcases List.mem_map.mp h with ⟨x, hx, rfl⟩
  exact (List.mem_filter.mp hx).2

theorem highlightBox_no_synth (e : Element)
    (h : ¬((e.rect.width = 0 ∨ e.rect.height = 0) ∧ e.children.length > 0)) :
    highlightBox e =
      if e.rect.width = 0 ∨ e.rect.height = 0 then none else some e.rect := by
  simp only [highlightBox]
  rw [if_neg h]

theorem highlightBox_synth (e : Element)
    (htrig : (e.rect.width = 0 ∨ e.rect.height = 0) ∧ e.children.length > 0) :
    highlightBox e =
      match collectSized e with
      | [] => none
      | r :: rs => some (unionRect r rs) := by
  simp only [highlightBox]
  rw [if_pos htrig, calculateBounds_eq_foldl]
  cases hcs : collectSized e with
  | nil =>
      show (if e.rect.width = 0 ∨ e.rect.height = 0 then none else some e.rect) = none
      rw [if_pos htrig.1]
  | cons r rs =>
      have hr : sizedRect r = true := mem_collectSized_sized (by
        rw [hcs]; exact List.mem_cons_self r rs)
      have hboth : 0 < r.width ∧ 0 < r.height := by
        have hpair := hr
        unfold sizedRect at hpair
        rw [Bool.and_eq_true] at hpair
        exact ⟨of_decide_eq_true hpair.1, of_decide_eq_true hpair.2⟩
      have hrw : 0 < r.width := hboth.1
      have hrh : 0 < r.height := hboth.2
      rw [show (r :: rs).foldl boundsUpdate none =
        rs.foldl boundsUpdate (some (r.left, r.top, r.right, r.bottom)) from rfl]
      rw [boundsUpdate_foldl_some]
      have hwidth : 0 < rs.foldl (fun m x => max m x.right) r.right -
          rs.foldl (fun m x => min m x.left) r.left := by
        have h1 := foldl_min_le (fun x => x.left) rs r.left
        have h2 := le_foldl_max (fun x => x.right) rs r.right
        have h3 : r.left < r.right := by
          unfold Rect.right
          omega
        omega
      have hheight : 0 < rs.foldl (fun m x => max m x.bottom) r.bottom -
          rs.foldl (fun m x => min m x.top) r.top := by
        have h1 := foldl_min_le (fun x => x.top) rs r.top
        have h2 := le_foldl_max (fun x => x.bottom) rs r.bottom
        have h3 : r.top < r.bottom := by
          unfold Rect.bottom
          omega
        omega
      show (if (Rect.mk (rs.foldl (fun m x => min m x.top) r.top)
          (rs.foldl (fun m x => min m x.left) r.left)
          (rs.foldl (fun m x => max m x.right) r.right -
            rs.foldl (fun m x => min m x.left) r.left)
          (rs.foldl (fun m x => max m x.bottom) r.bottom -
            rs.foldl (fun m x => min m x.top) r.top)).width = 0 ∨
          (Rect.mk (rs.foldl (fun m x => min m x.top) r.top)
          (rs.foldl (fun m x => min m x.left) r.left)
          (rs.foldl (fun m x => max m x.right) r.right -
            rs.foldl (fun m x => min m x.left) r.left)
          (rs.foldl (fun m x => max m x.bottom) r.bottom -
            rs.foldl (fun m x => min m x.top) r.top)).height = 0
        then none else some _) = some (unionRect r rs)
      rw [if_neg (by
        push_neg
        constructor
        · show rs.foldl (fun m x => max m x.right) r.right -
            rs.foldl (fun m x => min m x.left) r.left ≠ 0
          omega
        · show rs.foldl (fun m x => max m x.bottom) r.bottom -
            rs.foldl (fun m x => min m x.top) r.top ≠ 0
          omega)]
      rfl

/-- C2 amended: descendant-union synthesis happens exactly when at least one
dimension of the elements own rectangle is zero (not only when both are) and
the element has children; the synthesized box is the union over every sized
element of the subtree at any depth, which under the trigger condition never
includes the element itself; and if no descendant is sized, no box is
produced and no overlay is rendered. -/
theorem claim_C2 (e : Element) :
    (¬((e.rect.width = 0 ∨ e.rect.height = 0) ∧ e.children.length > 0) →
      highlightBox e =
        if e.rect.width = 0 ∨ e.rect.height = 0 then none else some e.rect) ∧
    (((e.rect.width = 0 ∨ e.rect.height = 0) ∧ e.children.length > 0) →
      collectSized e =
        ((allElems e).filter (fun x => sizedRect x.rect)).map Element.rect ∧
      (collectSized e = [] → highlightBox e = none) ∧
      (∀ r rs, collectSized e = r :: rs →
        highlightBox e = some (unionRect r rs))) := by
  refine ⟨highlightBox_no_synth e, fun htrig => ⟨collectSized_char e, ?_, ?_⟩⟩
  · intro hnil
    rw [highlightBox_synth e htrig, hnil]
  · intro r rs hcons
    rw [highlightBox_synth e htrig, hcons]

/-- Fixture: a sized child, the scenario box of the specification. -/
def exChildC2 : Element := .mk "div" [] ⟨10, 5, 100, 40⟩ []

/-- Fixture: an island with zero width but nonzero height and one sized
child. -/
def exHalfZeroC2 : Element := .mk "astro-island" [] ⟨0, 0, 0, 5⟩ [exChildC2]

/-- Fixture: an island with both dimensions zero and one sized child. -/
def exBothZeroC2 : Element := .mk "astro-island" [] ⟨0, 0, 0, 0⟩ [exChildC2]

/-- C2 counterexample: an element with zero width but nonzero height and one
sized child triggers synthesis and renders the union box, although both
dimensions are not zero; under the claim no synthesis would happen and the
zero-width own rectangle would render nothing. -/
theorem claim_C2_counterexample :
    highlightBox exHalfZeroC2 = some ⟨10, 5, 100, 40⟩ ∧
      ¬(exHalfZeroC2.rect.width = 0 ∧ exHalfZeroC2.rect.height = 0) ∧
      sizedRect exHalfZeroC2.rect = false := by
  refine ⟨by decide, by decide, by decide⟩

theorem claim_C2_witness :
    highlightBox exBothZeroC2 = some (unionRect ⟨10, 5, 100, 40⟩ []) ∧
      unionRect ⟨10, 5, 100, 40⟩ [] = ⟨10, 5, 100, 40⟩ :=
  ⟨((claim_C2 exBothZeroC2).2 (by decide)).2.2 ⟨10, 5, 100, 40⟩ [] (by rfl),
   by decide⟩

theorem buildChildren_get (parse : String → Option Json) (es : List Element) :
    ∀ (d : Nat) (p : List Nat) (k c i : Nat) (e2 : Element),
    es[i]? = some e2 →
    ∃ c2, ((buildChildren parse es d p k c).1)[i]? =
      some ((buildTree parse e2 (d + 1) (p ++ [k + i]) c2).1) := by
  induction es with
  | nil => intro d p k c i e2 h; simp at h
  | cons e es ih =>
      intro d p k c i e2 h
      cases i with
      | zero =>
          have he : e = e2 := by simpa using h
          subst he
          refine ⟨c, ?_⟩
          show ((buildTree parse e (d+1) (p ++ [k]) c).1 ::
            (buildChildren parse es d p (k+1)
              ((buildTree parse e (d+1) (p ++ [k]) c).2)).1)[0]? = _
          rw [Nat.add_zero]
          simp
      | succ j =>
          have he : es[j]? = some e2 := by simpa using h
          rcases ih d p (k+1) ((buildTree parse e (d+1) (p ++ [k]) c).2) j e2 he
            with ⟨c2, hc2⟩
          refine ⟨c2, ?_⟩
          show ((buildTree parse e (d+1) (p ++ [k]) c).1 ::
            (buildChildren parse es d p (k+1)
              ((buildTree parse e (d+1) (p ++ [k]) c).2)).1)[j+1]? = _
          rw [List.getElem?_cons_succ, hc2,
            show (k + 1) + j = k + (j + 1) from by omega]

theorem buildTree_child_paths (parse : String → Option Json) (e : Element) :
    ∀ (d : Nat) (p : List Nat) (c : Nat) (n : TreeNode),
    n ∈ allNodes ((buildTree parse e d p c).1) →
    ∀ (i : Nat) (c' : TreeNode), n.children[i]? = some c' →
      c'.path = n.path ++ [i] := by
  induction e using elementInduction with
  | h t a r cs ih =>
      intro d p c n hn i c' hc'
      have hsplit : n = (buildTree parse (.mk t a r cs) d p c).1 ∨
          n ∈ allNodesList ((buildChildren parse cs d p 0 (c + 1)).1) := by
        have hall : allNodes ((buildTree parse (.mk t a r cs) d p c).1) =
            (buildTree parse (.mk t a r cs) d p c).1 ::
              allNodesList ((buildChildren parse cs d p 0 (c + 1)).1) := by
          rw [show allNodes ((buildTree parse (.mk t a r cs) d p c).1) =
            (buildTree parse (.mk t a r cs) d p c).1 ::
              allNodesList ((buildTree parse (.mk t a r cs) d p c).1).children from
                by cases hb : (buildTree parse (.mk t a r cs) d p c).1 with
                   | mk dd cc => rfl]
          rw [buildTree_children]
        rw [hall] at hn
        exact List.mem_cons.mp hn
      rcases hsplit with rfl | hmem
      · rw [buildTree_children] at hc'
        have hlen : i < ((buildChildren parse cs d p 0 (c + 1)).1).length := by
          exact List.getElem?_eq_some.mp hc' |>.choose
        rw [buildChildren_length] at hlen
        have hcs : cs[i]? = some cs[i] := List.getElem?_eq_some.mpr ⟨hlen, rfl⟩
        rcases buildChildren_get parse cs d p 0 (c+1) i cs[i] hcs with ⟨c2, hc2⟩
        rw [hc2] at hc'
        have : c' = (buildTree parse cs[i] (d + 1) (p ++ [0 + i]) c2).1 :=
          (Option.some.inj hc').symm
        subst this
        rw [buildTree_path, buildTree_path,
          show 0 + i = i from by omega]
      · rcases mem_allNodes_buildChildren parse cs d p 0 (c+1) n hmem with
          ⟨e2, he2, j, c2, hn2⟩
        exact ih e2 he2 (d+1) (p ++ [j]) c2 n hn2 i c' hc'

theorem buildTree_depth_eq_pathLength (parse : String → Option Json)
    (e : Element) : ∀ (d : Nat) (p : List Nat) (c : Nat),
    d = p.length → ∀ n ∈ allNodes ((buildTree parse e d p c).1),
    n.depth = n.path.length := by
  induction e using elementInduction with
  | h t a r cs ih =>
      intro d p c hdp n hn
      have hsplit : n = (buildTree parse (.mk t a r cs) d p c).1 ∨
          n ∈ allNodesList ((buildChildren parse cs d p 0 (c + 1)).1) := by
        have hall : allNodes ((buildTree parse (.mk t a r cs) d p c).1) =
            (buildTree parse (.mk t a r cs) d p c).1 ::
              allNodesList ((buildChildren parse cs d p 0 (c + 1)).1) := by
          rw [show allNodes ((buildTree parse (.mk t a r cs) d p c).1) =
            (buildTree parse (.mk t a r cs) d p c).1 ::
              allNodesList ((buildTree parse (.mk t a r cs) d p c).1).children from
                by cases hb : (buildTree parse (.mk t a r cs) d p c).1 with
                   | mk dd cc => rfl]
          rw [buildTree_children]
        rw [hall] at hn
        exact List.mem_cons.mp hn
      rcases hsplit with rfl | hmem
      · rw [buildTree_path, buildTree_depth, hdp]
      · rcases mem_allNodes_buildChildren parse cs d p 0 (c+1) n hmem with
          ⟨e2, he2, j, c2, hn2⟩
        exact ih e2 he2 (d+1) (p ++ [j]) c2
          (by rw [List.length_append, hdp]; rfl) n hn2

/-- C3: in every built tree the root has empty path and depth 0, every node
depth equals the number of segments of its path, and the path of the i-th
child of any node is the path of the node with i appended. -/
theorem claim_C3 (parse : String → Option Json) (body : Element) :
    (buildTreeInPage parse body).path = [] ∧
    (buildTreeInPage parse body).depth = 0 ∧
    (∀ n ∈ allNodes (buildTreeInPage parse body),
      n.depth = n.path.length) ∧
    (∀ n ∈ allNodes (buildTreeInPage parse body),
      ∀ (i : Nat) (c' : TreeNode), n.children[i]? = some c' →
        c'.path = n.path ++ [i]) :=
  ⟨buildTree_path parse body 0 [] 0,
   buildTree_depth parse body 0 [] 0,
   buildTree_depth_eq_pathLength parse body 0 [] 0 rfl,
   buildTree_child_paths parse body 0 [] 0⟩

/-- Fixture: a body with one island child that itself has one child. -/
def exBodyC3 : Element :=
  .mk "body" [] ⟨0, 0, 0, 0⟩
    [.mk "astro-island" [("client", "idle")] ⟨0, 0, 0, 0⟩
      [.mk "div" [] ⟨3, 4, 50, 20⟩ []]]

theorem claim_C3_witness :
    (buildTreeInPage noParse exBodyC3).path = [] ∧
      (buildTreeInPage noParse exBodyC3).depth = 0 ∧
      (buildTreeInPage noParse exBodyC3).depth =
        (buildTreeInPage noParse exBodyC3).path.length ∧
      ∀ c', (buildTreeInPage noParse exBodyC3).children[0]? = some c' →
        c'.path = (buildTreeInPage noParse exBodyC3).path ++ [0] :=
  ⟨(claim_C3 noParse exBodyC3).1,
   (claim_C3 noParse exBodyC3).2.1,
   (claim_C3 noParse exBodyC3).2.2.1 _ (self_mem_allNodes _),
   fun c' hc' => (claim_C3 noParse exBodyC3).2.2.2 _ (self_mem_allNodes _) 0 c' hc'⟩

theorem buildTree_roundtrip (parse : String → Option Json) :
    ∀ (q : List Nat) (e : Element) (d : Nat) (p : List Nat) (c : Nat)
      (n : TreeNode),
    nodeAtPos ((buildTree parse e d p c).1) q = some n →
    ∃ e2 c2, resolvePath e q = some e2 ∧
      n = (buildTree parse e2 (d + q.length) (p ++ q) c2).1 := by
  intro q
  induction q with
  | nil =>
      intro e d p c n h
      have : (buildTree parse e d p c).1 = n := Option.some.inj h
      exact ⟨e, c, rfl, by rw [← this]; simp⟩
  | cons i rest ih =>
      intro e d p c n h
      cases e with
      | mk t a r cs =>
          have h2 : (match ((buildTree parse (.mk t a r cs) d p c).1).children[i]? with
            | some x => nodeAtPos x rest
            | none => none) = some n := h
          rw [buildTree_children] at h2
          cases hci : ((buildChildren parse cs d p 0 (c + 1)).1)[i]? with
          | none => rw [hci] at h2; cases h2
          | some x =>
              rw [hci] at h2
              have hlen : i < ((buildChildren parse cs d p 0 (c + 1)).1).length :=
                List.getElem?_eq_some.mp hci |>.choose
              rw [buildChildren_length] at hlen
              have hcs : cs[i]? = some cs[i] :=
                List.getElem?_eq_some.mpr ⟨hlen, rfl⟩
              rcases buildChildren_get parse cs d p 0 (c+1) i cs[i] hcs with
                ⟨c2, hc2⟩
              rw [hci] at hc2
              have hx : x = (buildTree parse cs[i] (d + 1) (p ++ [0 + i]) c2).1 :=
                Option.some.inj hc2
              subst hx
              rcases ih cs[i] (d+1) (p ++ [0 + i]) c2 n h2 with
                ⟨e2, c3, hres, hn⟩
              refine ⟨e2, c3, ?_, ?_⟩
              · show (match (Element.mk t a r cs).children[i]? with
                  | some x => resolvePath x rest
                  | none => none) = some e2
                rw [elementChildren_mk, hcs]
                exact hres
              · rw [hn,
                  show (p ++ [0 + i]) ++ rest = p ++ (i :: rest) from by
                    rw [show 0 + i = i from by omega, List.append_assoc]
                    rfl,
                  show (d + 1) + rest.length = d + (i :: rest).length from by
                    rw [List.length_cons]
                    omega]

/-- C4: resolving the path of any node of a built tree against the same DOM
yields exactly the element the node was built from: the node at tree
position q carries path q, and descending the DOM by q reaches an element
whose build (at that depth, path, and some counter) is the node itself. -/
theorem claim_C4 (parse : String → Option Json) (body : Element)
    (q : List Nat) (n : TreeNode)
    (h : nodeAtPos (buildTreeInPage parse body) q = some n) :
    n.path = q ∧
    ∃ e2, resolvePath body q = some e2 ∧
      ∃ c2, n = (buildTree parse e2 q.length q c2).1 := by
  rcases buildTree_roundtrip parse q body 0 [] 0 n h with ⟨e2, c2, hres, hn⟩
  rw [show (0 : Nat) + q.length = q.length from by omega] at hn
  rw [show ([] : List Nat) ++ q = q from by simp] at hn
  exact ⟨by rw [hn, buildTree_path], e2, hres, c2, hn⟩

/-- Fixture: the node the builder produces at position 0.0 of `exBodyC3`. -/
def exNodeC4 : TreeNode :=
  .mk ⟨"node-2", "div", false, none, none, none, none, 2, [0, 0]⟩ []

theorem claim_C4_witness :
    exNodeC4.path = [0, 0] ∧
      ∃ e2, resolvePath exBodyC3 [0, 0] = some e2 ∧
        ∃ c2, exNodeC4 = (buildTree noParse e2 [0, 0].length [0, 0] c2).1 :=
  claim_C4 noParse exBodyC3 [0, 0] exNodeC4 (by rfl)

theorem buildTree_componentName (parse : String → Option Json) (t : String)
    (a : List (String × String)) (r : Rect) (cs : List Element) (d : Nat)
    (p : List Nat) (c : Nat) :
    ((buildTree parse (.mk t a r cs) d p c).1).data.componentName =
      (if (jsToLower t == "astro-island") = true then
        (match (if (jsToLower t == "astro-island") = true then
            match (Element.mk t a r cs).getAttribute "opts" with
            | some s => if s == "" then none else (parse s).bind jsonGetName
            | none => none
          else none) with
        | some s =>
            if s == "" then
              some (jsOrString
                (componentUrlName
                  (jsOrString ((Element.mk t a r cs).getAttribute "component-url") ""))
                "Island")
            else some s
        | none =>
            some (jsOrString
              (componentUrlName
                (jsOrString ((Element.mk t a r cs).getAttribute "component-url") ""))
              "Island"))
      else none) := rfl

/-- C8: on an island element whose opts attribute holds malformed JSON the
builder still returns (it is a total function) and still builds every child,
and the component name falls back to the last component-url path segment
with a trailing extension stripped, or to the placeholder Island when the
url yields nothing. -/
theorem claim_C8 (parse : String → Option Json) (t : String)
    (a : List (String × String)) (r : Rect) (cs : List Element) (d : Nat)
    (p : List Nat) (c : Nat) (os : String)
    (h1 : jsToLower t = "astro-island")
    (h2 : (Element.mk t a r cs).getAttribute "opts" = some os)
    (h3 : os ≠ "")
    (h4 : parse os = none) :
    ((buildTree parse (.mk t a r cs) d p c).1).data.componentName =
      some (jsOrString
        (componentUrlName
          (jsOrString ((Element.mk t a r cs).getAttribute "component-url") ""))
        "Island") ∧
    ((buildTree parse (.mk t a r cs) d p c).1).children.length = cs.length ∧
    ((Element.mk t a r cs).getAttribute "component-url" = none →
      ((buildTree parse (.mk t a r cs) d p c).1).data.componentName =
        some "Island") := by
  have hbeq : (jsToLower t == "astro-island") = true := by
    rw [h1]
    rfl
  have hos : (os == "") = false := by
    rcases hx : os == "" with _ | _
    · rfl
    · exact absurd (by simpa using hx) h3
  have hname : ((buildTree parse (.mk t a r cs) d p c).1).data.componentName =
      some (jsOrString
        (componentUrlName
          (jsOrString ((Element.mk t a r cs).getAttribute "component-url") ""))
        "Island") := by
    rw [buildTree_componentName, if_pos hbeq, if_pos hbeq, h2]
    simp only [hos, Bool.false_eq_true, if_false, h4, Option.none_bind]
  refine ⟨hname, ?_, ?_⟩
  · rw [buildTree_children, buildChildren_length]
  · intro hurl
    rw [hname, hurl]
    rfl

/-- Fixture: an island whose opts attribute is malformed JSON and whose
component-url carries the component file name. -/
def exIslandBadC8 : Element :=
  .mk "astro-island"
    [("opts", "not json"), ("component-url", "/src/components/Counter.astro")]
    ⟨0, 0, 0, 0⟩ []

theorem claim_C8_witness :
    (buildTreeInPage noParse exIslandBadC8).data.componentName =
      some (jsOrString
        (componentUrlName
          (jsOrString (exIslandBadC8.getAttribute "component-url") ""))
        "Island") ∧
      (buildTreeInPage noParse exIslandBadC8).data.componentName =
        some "Counter" ∧
      (buildTreeInPage noParse exIslandBadC8).children.length = 0 :=
  ⟨(claim_C8 noParse "astro-island"
      [("opts", "not json"), ("component-url", "/src/components/Counter.astro")]
      ⟨0, 0, 0, 0⟩ [] 0 [] 0 "not json" (by rfl) (by rfl) (by decide) (by rfl)).1,
   by decide,
   (claim_C8 noParse "astro-island"
      [("opts", "not json"), ("component-url", "/src/components/Counter.astro")]
      ⟨0, 0, 0, 0⟩ [] 0 [] 0 "not json" (by rfl) (by rfl) (by decide) (by rfl)).2.1⟩

theorem findParentLoop_mem_children (tid : String) (d : NodeData)
    (cs : List TreeNode)
    (hpt : ∀ c ∈ cs, ∀ (par : Option TreeNode) (q : TreeNode),
      findParent c tid par = some q →
        (par = some q ∧ c.id = tid) ∨ ∃ c2 ∈ q.children, c2.id = tid) :
    ∀ (suffix : List TreeNode), (∀ c ∈ suffix, c ∈ cs) →
    ∀ q, findParentLoop suffix tid (TreeNode.mk d cs) = some q →
      ∃ c2 ∈ q.children, c2.id = tid := by
  intro suffix
  induction suffix with
  | nil => intro _ q h; cases h
  | cons c rest ih =>
      intro hsub q h
      have h2 : (match findParent c tid (some (TreeNode.mk d cs)) with
        | some found => some found
        | none => findParentLoop rest tid (TreeNode.mk d cs)) = some q := h
      cases hf : findParent c tid (some (TreeNode.mk d cs)) with
      | some found =>
          rw [hf] at h2
          have hq : found = q := Option.some.inj h2
          rcases hpt c (hsub c (List.mem_cons_self c rest)) _ _ hf with
            ⟨hpar, hcid⟩ | hex
          · have hroot : TreeNode.mk d cs = found := Option.some.inj hpar
            rw [← hq, ← hroot]
            exact ⟨c, hsub c (List.mem_cons_self c rest), hcid⟩
          · rw [← hq]
            exact hex
      | none =>
          rw [hf] at h2
          exact ih (fun x hx => hsub x (List.mem_cons_of_mem c hx)) q h2

theorem findParent_mem_children :
    ∀ (root : TreeNode) (tid : String) (par : Option TreeNode) (q : TreeNode),
    findParent root tid par = some q →
      (par = some q ∧ root.id = tid) ∨ ∃ c ∈ q.children, c.id = tid := by
  intro root
  induction root using treeNodeInduction with
  | h d cs ih =>
      intro tid par q h
      have h2 : (if (d.id == tid) = true then par
        else findParentLoop cs tid (TreeNode.mk d cs)) = some q := h
      by_cases hid : (d.id == tid) = true
      · rw [if_pos hid] at h2
        exact Or.inl ⟨h2, by simpa using hid⟩
      · rw [if_neg hid] at h2
        exact Or.inr (findParentLoop_mem_children tid d cs
          (fun c hc => ih c hc tid) cs (fun _ hx => hx) q h2)

theorem findParent_self (t : TreeNode) : findParent t t.id none = none := by
  cases t with
  | mk d cs =>
      show (if (d.id == d.id) = true then none
        else findParentLoop cs d.id (TreeNode.mk d cs)) = none
      rw [if_pos (beq_self_eq_true d.id)]

/-- C9: with a tree present, a nonempty visible list, and a selected node,
ArrowLeft collapses an expanded selected node with children leaving the
selection unchanged; otherwise it moves the selection to the direct parent
returned by findParent on the filtered tree and requests a scroll to it, and
does nothing when findParent yields nothing, which is always the case for
the root; a found parent really is a direct parent: the selected id occurs
among its children. -/
theorem claim_C9 (ft : TreeNode) (vns : List TreeNode) (sel : TreeNode)
    (expandedNodes : List String) (hv : vns ≠ []) :
    (setHas expandedNodes sel.id = true → sel.children ≠ [] →
      handleArrowLeft ⟨some ft, vns, some sel, expandedNodes⟩ =
        (⟨some ft, vns, some sel, setDelete expandedNodes sel.id⟩, none)) ∧
    ((setHas expandedNodes sel.id = false ∨ sel.children = []) →
      (∀ par, findParent ft sel.id none = some par →
        handleArrowLeft ⟨some ft, vns, some sel, expandedNodes⟩ =
          (⟨some ft, vns, some par, expandedNodes⟩, some par.path)) ∧
      (findParent ft sel.id none = none →
        handleArrowLeft ⟨some ft, vns, some sel, expandedNodes⟩ =
          (⟨some ft, vns, some sel, expandedNodes⟩, none))) ∧
    findParent ft ft.id none = none ∧
    (∀ par, findParent ft sel.id none = some par →
      ∃ c ∈ par.children, c.id = sel.id) := by
  have hlen : ¬(vns.length = 0) := by
    intro h
    exact hv (List.length_eq_zero.mp h)
  refine ⟨?_, ?_, findParent_self ft, ?_⟩
  · intro hset hch
    show (if vns.length = 0 then _ else _) = _
    rw [if_neg hlen]
    have hcond : setHas expandedNodes sel.id ∧ sel.children.length > 0 :=
      ⟨hset, List.length_pos.mpr hch⟩
    show (if setHas expandedNodes sel.id ∧ sel.children.length > 0
      then _ else _) = _
    rw [if_pos hcond]
    have htog : toggleNode expandedNodes sel.id = setDelete expandedNodes sel.id := by
      unfold toggleNode
      rw [if_pos (by simpa [setHas] using hset)]
    rw [htog]
  · intro hels
    have hncond : ¬(setHas expandedNodes sel.id ∧ sel.children.length > 0) := by
      rcases hels with h | h
      · intro hc
        rw [h] at hc
        exact Bool.false_ne_true hc.1
      · intro hc
        rw [h] at hc
        simp at hc
    constructor
    · intro par hpar
      show (if vns.length = 0 then _ else _) = _
      rw [if_neg hlen]
      show (if setHas expandedNodes sel.id ∧ sel.children.length > 0
        then _ else _) = _
      rw [if_neg hncond, hpar]
    · intro hnone
      show (if vns.length = 0 then _ else _) = _
      rw [if_neg hlen]
      show (if setHas expandedNodes sel.id ∧ sel.children.length > 0
        then _ else _) = _
      rw [if_neg hncond, hnone]
  · intro par hpar
    rcases findParent_mem_children ft sel.id none par hpar with ⟨h, _⟩ | h
    · cases h
    · exact h

/-- Fixture: a childless selected node. -/
def exChildC9 : TreeNode :=
  .mk ⟨"node-1", "astro-island", true, some "Counter", some "load", none,
    none, 1, [0]⟩ []

/-- Fixture: a root holding `exChildC9` as its only child. -/
def exParentC9 : TreeNode :=
  .mk ⟨"node-0", "body", false, none, none, none, none, 0, []⟩ [exChildC9]

theorem claim_C9_witness :
    (handleArrowLeft ⟨some exParentC9, [exParentC9], some exParentC9,
        ["node-0"]⟩ =
      (⟨some exParentC9, [exParentC9], some exParentC9,
        setDelete ["node-0"] "node-0"⟩, none)) ∧
    (handleArrowLeft ⟨some exParentC9, [exParentC9, exChildC9], some exChildC9,
        []⟩ =
      (⟨some exParentC9, [exParentC9, exChildC9], some exParentC9, []⟩,
        some exParentC9.path)) ∧
    ∃ c ∈ exParentC9.children, c.id = exChildC9.id :=
  ⟨(claim_C9 exParentC9 [exParentC9] exParentC9 ["node-0"]
      (by simp)).1 (by rfl) (by simp [exParentC9]),
   ((claim_C9 exParentC9 [exParentC9, exChildC9] exChildC9 []
      (by simp)).2.1 (Or.inl rfl)).1 exParentC9 (by rfl),
   (claim_C9 exParentC9 [exParentC9, exChildC9] exChildC9 []
      (by simp)).2.2.2 exParentC9 (by rfl)⟩

end AstroInspector
